import Mathlib

/-! Shallow embedding of the retrieval & reranking pipeline of the
Adaptive-User-driven-Retrieval-Architecture repository.

Embedded source files:
  * `RAG/pipeline.py`   — class `RAG`: `__init__` (load-or-build), `_build_index`,
    `retrieve`, `query`.
  * `fastapi_backend/RAG/reranker.py` — class `Reranker`: `rerank`.

External dependencies (the sentence-transformer encoder, the cross-encoder
scoring model, and the faiss vector index) are not part of the repository
source; where their behaviour decides a claim they are modelled from the
spec, with a doc comment saying so.  Python exceptions are modelled by
`Option`: `none` means the call raised.

Conventions: embeddings are rational vectors (`Vec`); the encoder and the
scoring model are explicit function parameters, making every operation a
pure function of its inputs.
-/

/-- A corpus document: the metadata record stored alongside the index.
The source accesses `doc["title"]` and `doc["content"]`. -/
structure Doc where
  title : String
  content : String
deriving DecidableEq

/-- Embedding vector (fixed-dimension dense vector in the source; here a
rational list — the dimension plays no role in any claim). -/
abbrev Vec := List ℚ

/-- Squared Euclidean (L2) distance used by `faiss.IndexFlatL2`. -/
def sqDist (a b : Vec) : ℚ :=
  ((a.zip b).map (fun p => (p.1 - p.2) * (p.1 - p.2))).sum

/-- Stable insertion step of Python's `sorted(..., key=key)`: `x` is placed
before the first element whose key is not smaller, so earlier elements keep
their place among equal keys. -/
def insertKey {α K : Type} [LinearOrder K] (key : α → K) (x : α) : List α → List α
  | [] => [x]
  | y :: ys => if key x ≤ key y then x :: y :: ys else y :: insertKey key x ys

/-- Python's `sorted(l, key=key)`: a stable sort, ascending by `key`.
`sorted(..., reverse=True)` is embedded as `pySorted` with the negated key,
which has the identical behaviour on rational keys: descending order with
equal-key elements in their original relative order. -/
def pySorted {α K : Type} [LinearOrder K] (key : α → K) : List α → List α
  | [] => []
  | x :: xs => insertKey key x (pySorted key xs)

/-- Positions paired with their distance to the query, in index order. -/
def scoredPositions (q : Vec) : Nat → List Vec → List (Nat × ℚ)
  | _, [] => []
  | n, v :: vs => (n, sqDist q v) :: scoredPositions q (n + 1) vs

/-- Modelled from the spec: `faiss.IndexFlatL2.search` (the Vector Index of
§4.3) is an external library call whose code is not in the repository.  Per
the spec it returns `(position, distance)` pairs ascending by exact L2
distance, ties broken by lowest position (the stable sort over index order
gives exactly this), with `k` clamped to the index size. -/
def searchIndex (index : List Vec) (q : Vec) (k : Nat) : List (Nat × ℚ) :=
  (pySorted (fun p : Nat × ℚ => p.2) (scoredPositions q 0 index)).take k

/-- The list comprehension `[self.docs[i] for i in indices[0]]` of
`RAG.retrieve` (`RAG/pipeline.py`), evaluated left to right; a position with
no metadata entry raises (Python `IndexError`), modelled as `none`. -/
def fetchDocs (docs : List Doc) : List (Nat × ℚ) → Option (List Doc)
  | [] => some []
  | p :: ps =>
    match docs[p.1]? with
    | none => none
    | some d =>
      match fetchDocs docs ps with
      | none => none
      | some ds => some (d :: ds)

/-- The queryable state of a constructed `RAG` instance: the embedding
model (modelled from the spec as a deterministic text-to-vector function,
§4.2), the faiss index, and the metadata list `self.docs`. -/
structure RAGState where
  embed : String → Vec
  index : List Vec
  docs : List Doc

/-- Embeds `RAG.retrieve` (`RAG/pipeline.py` lines 91–94): encode the query,
search the index for `top_k` nearest positions, map each position to its
document. -/
def RAG.retrieve (s : RAGState) (query : String) (top_k : Nat) : Option (List Doc) :=
  fetchDocs s.docs (searchIndex s.index (s.embed query) top_k)

/-- Embeds `Reranker.rerank` (`fastapi_backend/RAG/reranker.py` lines 8–15).
`predict` is the external cross-encoder's batched scoring call; it is
applied unconditionally to the pair list (the source has no empty-input
short-circuit), and a raising model call (`none`) propagates.  The Python
`sorted(..., key=lambda x: x[1], reverse=True)` is the stable descending
sort `pySorted` on the negated score. -/
def Reranker.rerank (predict : List (String × String) → Option (List ℚ))
    (query : String) (documents : List Doc) (top_k : Nat) : Option (List Doc) :=
  let pairs := documents.map (fun doc => (query, doc.content))
  match predict pairs with
  | none => none
  | some scores =>
    let scored_docs := pySorted (fun x : Doc × ℚ => -x.2) (documents.zip scores)
    some ((scored_docs.take top_k).map (fun x => x.1))

/-- Embeds `RAG.query` (`RAG/pipeline.py` lines 96–101): retrieve `top_k`
candidates, then — when `use_reranker` — hand them to a freshly
instantiated `Reranker` whose `rerank` is called without a `top_k`
argument, so the reranker's default of 3 applies.  `predict` stands for the
scoring model the fresh `Reranker()` loads. -/
def RAG.query (s : RAGState) (predict : List (String × String) → Option (List ℚ))
    (text : String) (use_reranker : Bool) (top_k : Nat) : Option (List Doc) :=
  match RAG.retrieve s text top_k with
  | none => none
  | some retrieved_docs =>
    if use_reranker then Reranker.rerank predict text retrieved_docs 3
    else some retrieved_docs

/-- The mutable state threaded through `RAG._build_index`
(`RAG/pipeline.py` lines 61–89): the faiss index (`None` until the first
batch is encoded), the growing `self.docs` metadata list, and the pending
text batch. -/
structure BuildState where
  index : Option (List Vec)
  docs : List Doc
  batch : List String

/-- The encode-and-add block of `_build_index`: encode the pending batch
(the encoder, modelled from the spec §4.2, returns one embedding per input
text in order, i.e. `batch.map embed`), create the index if it does not
exist yet, append the embeddings, clear the batch. -/
def addBatch (embed : String → Vec) (st : BuildState) : BuildState :=
  ⟨some (st.index.getD [] ++ st.batch.map embed), st.docs, []⟩

/-- One iteration of the streaming loop of `_build_index`: append the
document to `self.docs` and its content to the batch; flush the batch when
it has reached `batch_size`. -/
def buildFold (embed : String → Vec) (batch_size : Nat) (st : BuildState) (doc : Doc) :
    BuildState :=
  let st2 : BuildState := ⟨st.index, st.docs ++ [doc], st.batch ++ [doc.content]⟩
  if batch_size ≤ st2.batch.length then addBatch embed st2 else st2

/-- Embeds `RAG._build_index` plus the enclosing `self.docs = []` initialisation:
stream the corpus, batch-encode, flush the final non-empty batch, and
return the resulting index (`none` when no document was ever encoded)
together with the metadata list. -/
def RAG.buildIndex (embed : String → Vec) (batch_size : Nat) (corpus : List Doc) :
    Option (List Vec) × List Doc :=
  let st := corpus.foldl (buildFold embed batch_size) ⟨none, [], []⟩
  let st2 := if st.batch.isEmpty then st else addBatch embed st
  (st2.index, st2.docs)

/-- Durable storage as seen by the constructor: the index artifact file and
the metadata artifact file (`none` = the file does not exist). -/
structure Storage where
  indexFile : Option (List Vec)
  metaFile : Option (List Doc)

/-- The load-or-build logic of `RAG.__init__` (`RAG/pipeline.py` lines
38–53), called `loadOrBuild` in the spec (§4.4).  When `force_rebuild` is
false and both artifact files exist, both are loaded and used as they are —
the source performs no validation between them.  Otherwise a full build
runs; `faiss.write_index(None, path)` raises, so a build that produced no
index fails the constructor (`none`). -/
def RAG.loadOrBuild (embed : String → Vec) (batch_size : Nat) (storage : Storage)
    (corpus : List Doc) (force_rebuild : Bool) : Option (List Vec × List Doc) :=
  match force_rebuild, storage.indexFile, storage.metaFile with
  | false, some idx, some docs => some (idx, docs)
  | _, _, _ =>
    match RAG.buildIndex embed batch_size corpus with
    | (some idx, docs) => some (idx, docs)
    | (none, _) => none

/-- Concrete documents used by the concrete evaluations below. -/
def docA : Doc := ⟨"A", "alpha"⟩

def docB : Doc := ⟨"B", "beta"⟩

def docC : Doc := ⟨"C", "gamma"⟩

def docD : Doc := ⟨"D", "delta"⟩

/-- Inserting with `insertKey` permutes: the result holds the same elements
as consing. -/
theorem insertKey_perm {α K : Type} [LinearOrder K] (key : α → K) (x : α) (l : List α) :
    List.Perm (insertKey key x l) (x :: l) := by
  induction l with
  | nil => exact List.Perm.refl _
  | cons y ys ih =>
    by_cases h : key x ≤ key y
    · simp only [insertKey, if_pos h]
      exact List.Perm.refl _
    · simp only [insertKey, if_neg h]
      exact (ih.cons y).trans (List.Perm.swap x y ys)

/-- Inserting into a key-sorted list keeps it key-sorted. -/
theorem pairwise_insertKey {α K : Type} [LinearOrder K] (key : α → K) (x : α) (l : List α)
    (h : l.Pairwise (fun a b => key a ≤ key b)) :
    (insertKey key x l).Pairwise (fun a b => key a ≤ key b) := by
  induction l with
  | nil => simp [insertKey]
  | cons y ys ih =>
    rw [List.pairwise_cons] at h
    obtain ⟨hy, hys⟩ := h
    by_cases hxy : key x ≤ key y
    · simp only [insertKey, if_pos hxy]
      refine List.Pairwise.cons ?_ (List.Pairwise.cons hy hys)
      intro b hb
      rcases List.mem_cons.mp hb with rfl | hbys
      · exact hxy
      · exact hxy.trans (hy b hbys)
    · have hyx : key y ≤ key x := le_of_not_le hxy
      simp only [insertKey, if_neg hxy]
      refine List.Pairwise.cons ?_ (ih hys)
      intro b hb
      have hb2 : b ∈ x :: ys := (insertKey_perm key x ys).mem_iff.mp hb
      rcases List.mem_cons.mp hb2 with rfl | hbys
      · exact hyx
      · exact hy b hbys

/-- Stability of the insertion step: for a predicate selecting a single key
value, filtering commutes with insertion. -/
theorem filter_insertKey {α K : Type} [LinearOrder K] (key : α → K) (p : α → Bool)
    (hp : ∀ a b, p a = true → p b = true → key a = key b) (x : α) (l : List α) :
    (insertKey key x l).filter p = (x :: l).filter p := by
  induction l with
  | nil => rfl
  | cons y ys ih =>
    by_cases h : key x ≤ key y
    · simp only [insertKey, if_pos h]
    · have hyx : key y < key x := not_le.mp h
      simp only [insertKey, if_neg h]
      by_cases hpy : p y = true
      · by_cases hpx : p x = true
        · exact absurd (hp x y hpx hpy) (ne_of_gt hyx)
        · simp [List.filter_cons, hpy, hpx, ih]
      · by_cases hpx : p x = true
        · simp [List.filter_cons, hpy, hpx, ih]
        · simp [List.filter_cons, hpy, hpx, ih]

/-- The stable sort is a permutation of its input. -/
theorem pySorted_perm {α K : Type} [LinearOrder K] (key : α → K) (l : List α) :
    List.Perm (pySorted key l) l := by
  induction l with
  | nil => exact List.Perm.refl _
  | cons x xs ih => exact (insertKey_perm key x (pySorted key xs)).trans (ih.cons x)

/-- The stable sort is sorted: keys are pairwise non-decreasing. -/
theorem pairwise_pySorted {α K : Type} [LinearOrder K] (key : α → K) (l : List α) :
    (pySorted key l).Pairwise (fun a b => key a ≤ key b) := by
  induction l with
  | nil => simp [pySorted]
  | cons x xs ih => exact pairwise_insertKey key x _ ih

/-- Stability of the sort: the subsequence of elements with any fixed key
is exactly the corresponding subsequence of the input, i.e. equal-key
elements keep their original relative order. -/
theorem filter_pySorted {α K : Type} [LinearOrder K] (key : α → K) (p : α → Bool)
    (hp : ∀ a b, p a = true → p b = true → key a = key b) (l : List α) :
    (pySorted key l).filter p = l.filter p := by
  induction l with
  | nil => rfl
  | cons x xs ih =>
    simp only [pySorted]
    rw [filter_insertKey key p hp, List.filter_cons, List.filter_cons, ih]

/-- Scoring pairs one position with each index entry. -/
theorem scoredPositions_length (q : Vec) (l : List Vec) :
    ∀ n, (scoredPositions q n l).length = l.length := by
  induction l with
  | nil => intro n; rfl
  | cons v vs ih => intro n; simp [scoredPositions, ih]

/-- Every scored position is within the enumerated range. -/
theorem mem_scoredPositions_lt (q : Vec) (l : List Vec) :
    ∀ n p, p ∈ scoredPositions q n l → p.1 < n + l.length := by
  induction l with
  | nil =>
    intro n p h
    simp [scoredPositions] at h
  | cons v vs ih =>
    intro n p h
    simp only [scoredPositions, List.mem_cons] at h
    rcases h with rfl | h
    · simp only [List.length_cons]
      omega
    · have := ih (n + 1) p h
      simp only [List.length_cons]
      omega

/-- Search returns `min k n` results on an index of size `n`. -/
theorem length_searchIndex (index : List Vec) (q : Vec) (k : Nat) :
    (searchIndex index q k).length = min k index.length := by
  unfold searchIndex
  rw [List.length_take, (pySorted_perm _ _).length_eq, scoredPositions_length]

/-- Every position returned by search is a position of the index. -/
theorem mem_searchIndex_lt (index : List Vec) (q : Vec) (k : Nat) :
    ∀ p ∈ searchIndex index q k, p.1 < index.length := by
  intro p hp
  unfold searchIndex at hp
  have h1 : p ∈ pySorted (fun p : Nat × ℚ => p.2) (scoredPositions q 0 index) :=
    List.mem_of_mem_take hp
  have h2 : p ∈ scoredPositions q 0 index := (pySorted_perm _ _).mem_iff.mp h1
  have h3 := mem_scoredPositions_lt q index 0 p h2
  simpa using h3

/-- A single failing position lookup aborts the whole comprehension. -/
theorem fetchDocs_eq_none (docs : List Doc) (ps : List (Nat × ℚ))
    (h : ∃ p ∈ ps, docs[p.1]? = none) : fetchDocs docs ps = none := by
  induction ps with
  | nil =>
    obtain ⟨p, hp, _⟩ := h
    cases hp
  | cons p ps ih =>
    obtain ⟨p2, hp2, hnone⟩ := h
    rcases List.mem_cons.mp hp2 with rfl | hmem
    · simp [fetchDocs, hnone]
    · cases hd : docs[p.1]? with
      | none => simp [fetchDocs, hd]
      | some d => simp [fetchDocs, hd, ih ⟨p2, hmem, hnone⟩]

/-- When every position is in range, the comprehension succeeds and yields
one document per position. -/
theorem fetchDocs_eq_some (docs : List Doc) (ps : List (Nat × ℚ))
    (h : ∀ p ∈ ps, p.1 < docs.length) :
    ∃ l, fetchDocs docs ps = some l ∧ l.length = ps.length := by
  induction ps with
  | nil => exact ⟨[], rfl, rfl⟩
  | cons p ps ih =>
    have hp : p.1 < docs.length := h p (List.mem_cons_self p ps)
    obtain ⟨l, hl, hlen⟩ := ih (fun p2 h2 => h p2 (List.mem_cons_of_mem p h2))
    refine ⟨docs[p.1] :: l, ?_, ?_⟩
    · simp [fetchDocs, List.getElem?_eq_getElem hp, hl]
    · simp [hlen]

/-- Projecting the first components of a zip gives a sublist of the first
input. -/
theorem map_fst_zip_sublist {α β : Type} :
    ∀ (l₁ : List α) (l₂ : List β), List.Sublist ((l₁.zip l₂).map Prod.fst) l₁ := by
  intro l₁
  induction l₁ with
  | nil => intro l₂; simp
  | cons a l₁ ih =>
    intro l₂
    cases l₂ with
    | nil => simp
    | cons b l₂ => simpa using (ih l₂).cons₂ a

/-- Loop invariant of the streaming build: the fold appends the consumed
documents to the metadata in order; the embeddings already in the index
together with the pending batch are exactly the embeddings of everything
consumed; and the index is still missing only if no batch was ever
flushed, in which case every consumed content is still pending. -/
theorem buildFold_spec (embed : String → Vec) (bs : Nat) :
    ∀ (corpus : List Doc) (st : BuildState),
      (corpus.foldl (buildFold embed bs) st).docs = st.docs ++ corpus ∧
      ((corpus.foldl (buildFold embed bs) st).index.getD []) ++
          ((corpus.foldl (buildFold embed bs) st).batch.map embed)
        = (st.index.getD []) ++ st.batch.map embed
            ++ corpus.map (fun d => embed d.content) ∧
      ((corpus.foldl (buildFold embed bs) st).index = none →
        st.index = none ∧
        (corpus.foldl (buildFold embed bs) st).batch
          = st.batch ++ corpus.map (fun d => d.content)) := by
  intro corpus
  induction corpus with
  | nil =>
    intro st
    exact ⟨by simp, by simp, fun h => ⟨h, by simp⟩⟩
  | cons d ds ih =>
    intro st
    have hfold : (d :: ds).foldl (buildFold embed bs) st
        = ds.foldl (buildFold embed bs) (buildFold embed bs st d) := rfl
    by_cases hb : bs ≤ st.batch.length + 1
    · have hstep : buildFold embed bs st d
          = ⟨some ((st.index.getD []) ++ (st.batch ++ [d.content]).map embed),
              st.docs ++ [d], []⟩ := by
        simp [buildFold, addBatch, hb]
      obtain ⟨ih1, ih2, ih3⟩ := ih (buildFold embed bs st d)
      rw [hfold]
      refine ⟨?_, ?_, ?_⟩
      · rw [ih1, hstep]
        simp
      · rw [ih2, hstep]
        simp
      · intro hnone
        have h1 := (ih3 hnone).1
        rw [hstep] at h1
        simp at h1
    · have hstep : buildFold embed bs st d
          = ⟨st.index, st.docs ++ [d], st.batch ++ [d.content]⟩ := by
        simp [buildFold, addBatch, hb]
      obtain ⟨ih1, ih2, ih3⟩ := ih (buildFold embed bs st d)
      rw [hfold]
      refine ⟨?_, ?_, ?_⟩
      · rw [ih1, hstep]
        simp
      · rw [ih2, hstep]
        simp
      · intro hnone
        obtain ⟨h1, h2⟩ := ih3 hnone
        refine ⟨?_, ?_⟩
        · rw [hstep] at h1
          simpa using h1
        · rw [h2, hstep]
          simp

/-- Full-build characterisation: on a non-empty corpus, `_build_index`
returns the index holding one embedding per document in ingestion order,
and the metadata list is the corpus itself; in particular the two have
equal size. -/
theorem buildIndex_spec (embed : String → Vec) (bs : Nat) (corpus : List Doc)
    (hne : corpus ≠ []) :
    RAG.buildIndex embed bs corpus
      = (some (corpus.map (fun d => embed d.content)), corpus) := by
  obtain ⟨h1, h2, h3⟩ := buildFold_spec embed bs corpus ⟨none, [], []⟩
  simp only [RAG.buildIndex]
  simp only at h1 h2 h3
  by_cases hb : (corpus.foldl (buildFold embed bs) ⟨none, [], []⟩).batch.isEmpty
  · have hbnil : (corpus.foldl (buildFold embed bs) ⟨none, [], []⟩).batch = [] := by
      simpa using hb
    rw [if_pos hb]
    cases hidx : (corpus.foldl (buildFold embed bs) ⟨none, [], []⟩).index with
    | none =>
      obtain ⟨_, hbatch⟩ := h3 hidx
      rw [hbnil] at hbatch
      have hmap : corpus.map (fun d => d.content) = [] := by simpa using hbatch.symm
      exact absurd (List.map_eq_nil_iff.mp hmap) hne
    | some idx =>
      rw [hbnil, hidx] at h2
      simp at h2
      simp at h1
      rw [h1, h2]
  · rw [if_neg hb]
    simp only [addBatch]
    simp at h1 h2
    simp [Prod.ext_iff, h1, h2]

/-- Claim C1 (corrected): when `forceRebuild` is false and both artifact
files exist, the constructor loads both and returns the instance as-is —
it performs no size validation at all, for any pair of artifacts. -/
theorem loadOrBuild_loads_without_validation (embed : String → Vec) (bs : Nat)
    (idx : List Vec) (docs : List Doc) (corpus : List Doc) :
    RAG.loadOrBuild embed bs ⟨some idx, some docs⟩ corpus false = some (idx, docs) := rfl

/-- Claim C1 counterexample: artifacts with two index entries but one
metadata entry are loaded into a constructed instance, with no
`CorruptIndexError` — refuting the claimed load-time validation. -/
theorem loadOrBuild_accepts_mismatched_artifacts :
    RAG.loadOrBuild (fun _ => []) 32 ⟨some [[], []], some [docA]⟩ [] false
        = some ([[], []], [docA])
      ∧ ([[], []] : List Vec).length ≠ ([docA] : List Doc).length :=
  ⟨rfl, by decide⟩

/-- Claim C2 (confirmed): on a non-empty index of size `n` with metadata in
sync, a search with `k > n` returns exactly `n` results, and `retrieve`
returns exactly `n` documents. -/
theorem search_clamps_k (s : RAGState) (q : String) (k : Nat)
    (_hne : s.index ≠ []) (hk : s.index.length < k)
    (hsync : s.docs.length = s.index.length) :
    (searchIndex s.index (s.embed q) k).length = s.index.length ∧
      ∃ l, RAG.retrieve s q k = some l ∧ l.length = s.index.length := by
  have hlen : (searchIndex s.index (s.embed q) k).length = s.index.length := by
    rw [length_searchIndex]
    exact min_eq_right (le_of_lt hk)
  refine ⟨hlen, ?_⟩
  obtain ⟨l, hl, hlen2⟩ := fetchDocs_eq_some s.docs (searchIndex s.index (s.embed q) k)
    (fun p hp => by rw [hsync]; exact mem_searchIndex_lt s.index (s.embed q) k p hp)
  exact ⟨l, hl, by rw [hlen2, hlen]⟩

/-- Claim C2 witness: a two-vector index queried with `k = 5` yields two
search results and two retrieved documents. -/
theorem search_clamps_k_witness :
    (searchIndex [[], []] ((fun _ : String => ([] : Vec)) "q") 5).length = 2 ∧
      ∃ l, RAG.retrieve ⟨fun _ => [], [[], []], [docA, docB]⟩ "q" 5 = some l ∧ l.length = 2 :=
  search_clamps_k ⟨fun _ => [], [[], []], [docA, docB]⟩ "q" 5
    (by decide) (by decide) (by decide)

/-- Claim C3 (confirmed): if search returns a position with no metadata
entry, `retrieve` fails (the lookup raises and propagates — the spec's
`CorruptIndexError` at query time); it never skips the position or
substitutes a document, since any miss makes the whole call fail. -/
theorem retrieve_fails_on_lookup_miss (s : RAGState) (q : String) (k : Nat)
    (h : ∃ p ∈ searchIndex s.index (s.embed q) k, s.docs[p.1]? = none) :
    RAG.retrieve s q k = none :=
  fetchDocs_eq_none s.docs _ h

/-- Claim C3 witness: two index entries over a single metadata entry make
position 1 a lookup miss, and `retrieve` fails. -/
theorem retrieve_fails_on_lookup_miss_witness :
    RAG.retrieve ⟨fun _ => [], [[], []], [docA]⟩ "q" 2 = none :=
  retrieve_fails_on_lookup_miss ⟨fun _ => [], [[], []], [docA]⟩ "q" 2 (by decide)

/-- Claim C4 (code_bug): building from an empty corpus produces no index at
all (`_build_index` returns `None`), so the constructor fails
(`faiss.write_index(None, path)` raises) instead of yielding an instance
whose empty-index search returns an empty sequence. -/
theorem build_empty_corpus_fails :
    RAG.buildIndex (fun _ => []) 32 [] = (none, []) ∧
      RAG.loadOrBuild (fun _ => []) 32 ⟨none, none⟩ [] false = none :=
  ⟨rfl, rfl⟩

/-- Claim C5 counterexample: `rerank` on an empty candidate sequence is not
short-circuited — the batched model call is made on the empty pair list, so
a scoring model that raises on it makes `rerank` fail instead of returning
the empty sequence. -/
theorem rerank_empty_calls_model :
    Reranker.rerank (fun _ => none) "q" [] 3 = none := rfl

/-- Claim C5 (corrected): `rerank` on an empty candidate sequence invokes
the model on the empty pair list; when that call succeeds the result is the
empty sequence (the returned scores are ignored), and when it raises the
failure propagates. -/
theorem rerank_empty_propagates_model
    (predict : List (String × String) → Option (List ℚ)) (q : String) (k : Nat)
    (scores : List ℚ) (h : predict [] = some scores) :
    Reranker.rerank predict q [] k = some [] := by
  simp [Reranker.rerank, h]
  exact Or.inr rfl

/-- Claim C5 witness: a model returning an empty score list on the empty
batch makes `rerank` of no candidates return the empty sequence. -/
theorem rerank_empty_propagates_model_witness :
    Reranker.rerank (fun _ => some []) "q" [] 3 = some [] :=
  rerank_empty_propagates_model (fun _ => some []) "q" 3 [] rfl

/-- Claim C6 (confirmed): the sort inside `rerank` is descending by score
and stable — for every fixed score, the subsequence of candidates carrying
it is unchanged, so equal-score candidates keep their original relative
order; and concretely, candidates `[A, B, C]` with scores
`[0.5, 0.5, 0.9]` and `topK = 3` rerank to `[C, A, B]`. -/
theorem rerank_stable_descending :
    (∀ (docs : List Doc) (scores : List ℚ),
      (pySorted (fun x : Doc × ℚ => -x.2) (docs.zip scores)).Pairwise
          (fun a b => b.2 ≤ a.2)
        ∧ ∀ s : ℚ,
            (pySorted (fun x : Doc × ℚ => -x.2) (docs.zip scores)).filter
                (fun x => decide (x.2 = s))
              = (docs.zip scores).filter (fun x => decide (x.2 = s)))
      ∧ Reranker.rerank (fun _ => some [1/2, 1/2, 9/10]) "q" [docA, docB, docC] 3
          = some [docC, docA, docB] := by
  refine ⟨fun docs scores => ⟨?_, fun s => ?_⟩, ?_⟩
  · exact (pairwise_pySorted _ _).imp (fun h => neg_le_neg_iff.mp h)
  · refine filter_pySorted _ _ (fun a b ha hb => ?_) _
    have ha2 := of_decide_eq_true ha
    have hb2 := of_decide_eq_true hb
    rw [ha2, hb2]
  · norm_num [Reranker.rerank, pySorted, insertKey]

/-- Claim C7 (corrected): for every non-empty corpus, the full build
consumes the stream in batches, the metadata list is the corpus in
ingestion order, the index holds exactly one embedding per document in the
same order, and hence index size equals metadata size. -/
theorem build_preserves_sync (embed : String → Vec) (bs : Nat) (corpus : List Doc)
    (hne : corpus ≠ []) :
    RAG.buildIndex embed bs corpus
        = (some (corpus.map (fun d => embed d.content)), corpus)
      ∧ (corpus.map (fun d => embed d.content)).length = corpus.length :=
  ⟨buildIndex_spec embed bs corpus hne, by simp⟩

/-- Claim C7 witness: a two-document corpus builds to a two-entry index
with the corpus as metadata. -/
theorem build_preserves_sync_witness :
    RAG.buildIndex (fun _ => ([] : Vec)) 32 [docA, docB]
        = (some [[], []], [docA, docB])
      ∧ ([[], []] : List Vec).length = ([docA, docB] : List Doc).length := by
  have h := build_preserves_sync (fun _ => ([] : Vec)) 32 [docA, docB] (by decide)
  refine ⟨?_, by decide⟩
  rw [h.1]
  rfl

/-- Claim C7 counterexample: on the empty corpus the claimed invariant
cannot be established — the build returns no index at all. -/
theorem build_empty_corpus_no_index :
    (RAG.buildIndex (fun _ => ([] : Vec)) 32 []).1 = none := rfl

/-- Claim C8 (confirmed): the orchestrator's `query` is a pure function of
the instance state, the scoring model, and its arguments, so two identical
calls on an unchanged index return identical document sequences. -/
theorem query_deterministic (s : RAGState)
    (predict : List (String × String) → Option (List ℚ)) (text : String)
    (ur : Bool) (k : Nat) (r₁ r₂ : Option (List Doc))
    (h₁ : RAG.query s predict text ur k = r₁)
    (h₂ : RAG.query s predict text ur k = r₂) : r₁ = r₂ := by
  rw [← h₁, ← h₂]

/-- Claim C8 witness: two identical concrete calls give the same result. -/
theorem query_deterministic_witness :
    (some [docA] : Option (List Doc)) = some [docA] :=
  query_deterministic ⟨fun _ => [], [[]], [docA]⟩ (fun _ => some [0]) "q" true 3
    (some [docA]) (some [docA]) (by decide) (by decide)

/-- Claim C9 (confirmed): with the reranker enabled, `query` returns at
most 3 documents for every `top_k`, because the rerank stage is invoked
with the `Reranker` default `top_k = 3` while the argument is forwarded
only to retrieval. -/
theorem query_reranked_at_most_three (s : RAGState)
    (predict : List (String × String) → Option (List ℚ)) (text : String)
    (k : Nat) (l : List Doc) (h : RAG.query s predict text true k = some l) :
    l.length ≤ 3 := by
  simp only [RAG.query] at h
  cases hr : RAG.retrieve s text k with
  | none => rw [hr] at h; cases h
  | some rd =>
    rw [hr] at h
    simp only [if_true] at h
    simp only [Reranker.rerank] at h
    cases hp : predict (rd.map (fun doc => (text, doc.content))) with
    | none => rw [hp] at h; cases h
    | some scores =>
      rw [hp] at h
      have hl : ((pySorted (fun x : Doc × ℚ => -x.2) (rd.zip scores)).take 3).map
          (fun x => x.1) = l := by
        injection h
      rw [← hl, List.length_map, List.length_take]
      exact min_le_left _ _

/-- Claim C9 witness: a four-document index queried with `top_k = 10` and
the reranker enabled returns three documents. -/
theorem query_reranked_at_most_three_witness :
    ([docA, docB, docC] : List Doc).length ≤ 3 :=
  query_reranked_at_most_three
    ⟨fun _ => [], [[], [], [], []], [docA, docB, docC, docD]⟩
    (fun _ => some [0, 0, 0, 0]) "q" 10 [docA, docB, docC] (by decide)

/-- Claim C10 (confirmed): every document `rerank` returns comes from the
input candidate list, with no duplicates introduced — each document occurs
in the output at most as often as in the input (inputs themselves are
immutable values in this embedding). -/
theorem rerank_output_from_input
    (predict : List (String × String) → Option (List ℚ)) (q : String)
    (docs : List Doc) (k : Nat) (out : List Doc)
    (h : Reranker.rerank predict q docs k = some out) :
    (∀ d : Doc, out.count d ≤ docs.count d) ∧ ∀ d ∈ out, d ∈ docs := by
  simp only [Reranker.rerank] at h
  cases hp : predict (docs.map (fun doc => (q, doc.content))) with
  | none => rw [hp] at h; cases h
  | some scores =>
    rw [hp] at h
    have hl : ((pySorted (fun x : Doc × ℚ => -x.2) (docs.zip scores)).take k).map
        (fun x => x.1) = out := by
      injection h
    constructor
    · intro d
      rw [← hl]
      have s1 := (((List.take_sublist k
          (pySorted (fun x : Doc × ℚ => -x.2) (docs.zip scores)))).map
            (f := fun x : Doc × ℚ => x.1)).count_le d
      have s2 := (((pySorted_perm (fun x : Doc × ℚ => -x.2) (docs.zip scores)).map
            (fun x : Doc × ℚ => x.1))).count_eq d
      have s3 := (map_fst_zip_sublist docs scores).count_le d
      calc (((pySorted (fun x : Doc × ℚ => -x.2) (docs.zip scores)).take k).map
              (fun x => x.1)).count d
          ≤ (((pySorted (fun x : Doc × ℚ => -x.2) (docs.zip scores))).map
              (fun x => x.1)).count d := s1
        _ = ((docs.zip scores).map (fun x => x.1)).count d := s2
        _ ≤ docs.count d := s3
    · intro d hd
      rw [← hl] at hd
      obtain ⟨x, hx, hxd⟩ := List.mem_map.mp hd
      have hx2 : x ∈ pySorted (fun x : Doc × ℚ => -x.2) (docs.zip scores) :=
        List.mem_of_mem_take hx
      have hx3 : x ∈ docs.zip scores :=
        (pySorted_perm (fun x : Doc × ℚ => -x.2) (docs.zip scores)).mem_iff.mp hx2
      have hx4 : x.1 ∈ (docs.zip scores).map (fun x : Doc × ℚ => x.1) :=
        List.mem_map.mpr ⟨x, hx3, rfl⟩
      rw [hxd] at hx4
      exact (map_fst_zip_sublist docs scores).subset hx4

/-- Claim C10 witness: a concrete rerank call, with the containment facts
instantiated at its output. -/
theorem rerank_output_from_input_witness :
    ([docA, docB] : List Doc).count docA ≤ ([docA, docB] : List Doc).count docA
      ∧ docA ∈ ([docA, docB] : List Doc) := by
  have h := rerank_output_from_input (fun _ => some [0, 0]) "q" [docA, docB] 2
    [docA, docB] (by decide)
  exact ⟨h.1 docA, h.2 docA (by decide)⟩
